import Mathlib

/-!
Verification of the var_annot VCF annotation pipeline (src/var_annot.py).

The embedding models pandas tables as lists of rows, where a row is an
ordered association list from column labels to cell values.  Cell values
are either strings (modelled as lists of characters), integers (as parsed
by read_csv), or floats (which enter the table only through the remote
allele-frequency merge; a float cell is an optional rational, with `none`
standing for numpy's NaN).  Python's `str.split(sep)` is modelled by
`splitSep`, `str(int)` by `intToStr`, and each fallible pandas operation
returns `Except PyErr` with one error constructor per Python exception
family the source can raise.
-/

namespace VarAnnot

/-- Strings manipulated by the pipeline, as lists of characters. -/
abbrev Str := List Char

/-- Characters of a Lean string literal, used to write concrete cells. -/
def cs (s : String) : Str := s.data

/-- Python `str.split(sep)`: splits on every occurrence of `sep`; the
result is always non-empty and empty pieces are kept. -/
def splitSep (sep : Char) : Str → List Str
  | [] => [[]]
  | c :: rest =>
    if c = sep then
      [] :: splitSep sep rest
    else
      match splitSep sep rest with
      | [] => [[c]]
      | t :: ts => (c :: t) :: ts

/-- Python `sep.join(parts)`. -/
def joinSep (sep : Char) : List Str → Str
  | [] => []
  | [p] => p
  | p :: q :: ps => p ++ sep :: joinSep sep (q :: ps)

theorem splitSep_ne_nil (sep : Char) (s : Str) : splitSep sep s ≠ [] := by
  cases s with
  | nil => simp [splitSep]
  | cons c rest =>
    simp only [splitSep]
    split
    · simp
    · split <;> simp

theorem splitSep_no_sep (sep : Char) (s : Str) (h : sep ∉ s) :
    splitSep sep s = [s] := by
  induction s with
  | nil => rfl
  | cons c rest ih =>
    simp only [List.mem_cons, not_or] at h
    simp only [splitSep]
    rw [if_neg (fun hc => h.1 hc.symm)]
    rw [ih h.2]

theorem splitSep_append_cons (sep : Char) (p rest : Str) (h : sep ∉ p) :
    splitSep sep (p ++ sep :: rest) = p :: splitSep sep rest := by
  induction p with
  | nil => simp [splitSep]
  | cons c t ih =>
    simp only [List.mem_cons, not_or] at h
    simp only [List.cons_append, splitSep]
    rw [if_neg (fun hc => h.1 hc.symm)]
    simp only [List.append_eq]
    rw [ih h.2]

theorem splitSep_joinSep (sep : Char) (parts : List Str) (hne : parts ≠ [])
    (hfree : ∀ p ∈ parts, sep ∉ p) :
    splitSep sep (joinSep sep parts) = parts := by
  induction parts with
  | nil => exact absurd rfl hne
  | cons p ps ih =>
    cases ps with
    | nil =>
      simp only [joinSep]
      exact splitSep_no_sep sep p (hfree p (by simp))
    | cons q qs =>
      simp only [joinSep]
      rw [splitSep_append_cons sep p _ (hfree p (by simp))]
      rw [ih (by simp) (fun x hx => hfree x (List.mem_cons_of_mem p hx))]

theorem mem_iff_two_le_splitSep (sep : Char) (s : Str) :
    sep ∈ s ↔ 2 ≤ (splitSep sep s).length := by
  constructor
  · intro hmem
    induction s with
    | nil => cases hmem
    | cons c rest ih =>
      simp only [splitSep]
      rcases List.mem_cons.mp hmem with hc | hrest
      · rw [if_pos hc.symm]
        have := splitSep_ne_nil sep rest
        have hlen : 1 ≤ (splitSep sep rest).length := by
          cases hs : splitSep sep rest with
          | nil => exact absurd hs this
          | cons a as => simp
        simp only [List.length_cons]
        omega
      · by_cases hc : c = sep
        · rw [if_pos hc]
          have := splitSep_ne_nil sep rest
          have hlen : 1 ≤ (splitSep sep rest).length := by
            cases hs : splitSep sep rest with
            | nil => exact absurd hs this
            | cons a as => simp
          simp only [List.length_cons]
          omega
        · rw [if_neg hc]
          have h2 := ih hrest
          cases hs : splitSep sep rest with
          | nil => exact absurd hs (splitSep_ne_nil sep rest)
          | cons a as =>
            rw [hs] at h2
            simpa using h2
  · intro hlen
    by_contra hmem
    rw [splitSep_no_sep sep s hmem] at hlen
    simp at hlen

/-- Decimal digit characters, used to model Python's integer rendering. -/
def digitCh : Nat → Char
  | 0 => '0'
  | 1 => '1'
  | 2 => '2'
  | 3 => '3'
  | 4 => '4'
  | 5 => '5'
  | 6 => '6'
  | 7 => '7'
  | 8 => '8'
  | _ => '9'

/-- Little-endian decimal digits of `n`; `fuel` bounds the recursion depth
and any `fuel ≥ n` is sufficient. -/
def natDigitsLE (fuel n : Nat) : List Nat :=
  match fuel, n with
  | 0, _ => []
  | _, 0 => []
  | fuel + 1, n => n % 10 :: natDigitsLE fuel (n / 10)

/-- Python `str(n)` for a non-negative integer: canonical decimal form. -/
def natToStr (n : Nat) : Str :=
  if n = 0 then ['0'] else ((natDigitsLE n n).map digitCh).reverse

/-- Python `str(n)` for an integer. -/
def intToStr (n : Int) : Str :=
  if n < 0 then '-' :: natToStr n.natAbs else natToStr n.toNat

/-- Cell values: strings, integers (from read_csv), or floats (from the
remote lookup; `none` models numpy's NaN). -/
inductive Val where
  | vstr (s : Str)
  | vint (n : Int)
  | vfloat (q : Option Rat)
  deriving DecidableEq, Repr

/-- Python `str(value)` on a cell.  String cells render as themselves and
integer cells in canonical decimal.  Float formatting is not modelled (the
pipeline stringifies cells only during expansion, which runs before any
float cell exists); the `vfloat` branches are never exercised by a theorem
below. -/
def Val.toStr : Val → Str
  | vstr s => s
  | vint n => intToStr n
  | vfloat none => cs "nan"
  | vfloat (some _) => []

/-- A table row: an ordered association list from column labels to cells,
modelling a pandas Series with its index. -/
abbrev Row := List (String × Val)

/-- Python exception families raised by the source functions. -/
inductive PyErr where
  | emptyTable
  | naCell
  | noKeyValueSep
  | keyError
  | typeError
  deriving DecidableEq, Repr

/-- Label lookup on a row (`row[column]`), returning the first matching
cell; `none` models a KeyError. -/
def Row.get : Row → String → Option Val
  | [], _ => none
  | (c, v) :: r, c' => if c = c' then some v else Row.get r c'

/-- Label assignment on a row (`row[column] = value`): overwrites the
first matching cell in place, or appends a new labelled cell. -/
def Row.set : Row → String → Val → Row
  | [], c, v => [(c, v)]
  | (c', v') :: r, c, v =>
    if c' = c then (c, v) :: r else (c', v') :: Row.set r c v

/-- Column removal (`df.drop([column], axis=1)` restricted to one row). -/
def Row.dropCol (r : Row) (c : String) : Row :=
  r.filter (fun p => p.1 ≠ c)

/-- Python `row.apply(str)`: stringify every cell of a row. -/
def rowApplyStr (r : Row) : Row :=
  r.map (fun p => (p.1, Val.vstr p.2.toStr))

/-- Left-to-right effectful map over a list in the `Except` monad,
stopping at the first error, as a Python loop over rows or cells does. -/
def exceptMapM (f : α → Except PyErr β) : List α → Except PyErr (List β)
  | [] => .ok []
  | x :: xs =>
    match f x with
    | .error e => .error e
    | .ok y =>
      match exceptMapM f xs with
      | .error e => .error e
      | .ok ys => .ok (y :: ys)

instance {ε α : Type} [DecidableEq ε] [DecidableEq α] :
    DecidableEq (Except ε α)
  | .ok a, .ok b =>
    match decEq a b with
    | isTrue h => isTrue (by rw [h])
    | isFalse h => isFalse (fun hh => h (Except.ok.inj hh))
  | .ok _, .error _ => isFalse (fun hh => by cases hh)
  | .error _, .ok _ => isFalse (fun hh => by cases hh)
  | .error e, .error e' =>
    match decEq e e' with
    | isTrue h => isTrue (by rw [h])
    | isFalse h => isFalse (fun hh => h (Except.error.inj hh))

/-- Fetch a cell, raising KeyError when the label is absent
(`row[column]`). -/
def getCell (row : Row) (c : String) : Except PyErr Val :=
  match row.get c with
  | some v => .ok v
  | none => .error .keyError

/-- Fetch a cell that must be a string (`row[column].split` and the
pandas `.str` accessor raise on non-string cells). -/
def getStrCell (row : Row) (c : String) : Except PyErr Str :=
  match row.get c with
  | some (.vstr s) => .ok s
  | some _ => .error .typeError
  | none => .error .keyError

/-- Embedding of `convert_col_to_df` (src/var_annot.py:28-44) applied to
the extracted column: each packed string is split on `elem_sep`; the
header comes from row 0 only (`df.iloc[0]`, keeping the part before
`key_value_sep`); every cell keeps the part after `key_value_sep`
(`item.split(key_value_sep)[1]`, an IndexError when the separator is
absent).  A ragged split makes pandas pad with NaN, on which the later
`.split` calls raise; `naCell` models that failure.  When a row is both
ragged and missing a separator the Python error raised depends on
pandas' traversal order; the model fixes the `naCell` answer, and no
theorem below depends on that choice.  An empty column fails at
`df.iloc[0]` (`emptyTable`). -/
def convert_col_to_df (col : List Str) (key_value_sep elem_sep : Char) :
    Except PyErr (List Str × List (List Str)) :=
  match col with
  | [] => .error .emptyTable
  | c0 :: crest =>
    if ((c0 :: crest).map (splitSep elem_sep)).any
        (fun s => s.length ≠ (splitSep elem_sep c0).length) then
      .error .naCell
    else
      match exceptMapM (fun s => exceptMapM (fun e =>
          match (splitSep key_value_sep e).get? 1 with
          | some v => .ok v
          | none => .error .noKeyValueSep) s)
          ((c0 :: crest).map (splitSep elem_sep)) with
      | .error e => .error e
      | .ok cells =>
        .ok ((splitSep elem_sep c0).map
          (fun e => (splitSep key_value_sep e).headD []), cells)

/-- Iteration order of a Python dict built by assigning each element of
`cols` in turn: first occurrences, in order. -/
def dedupKeys : List String → List String
  | [] => []
  | c :: rest => c :: (dedupKeys rest).filter (fun x => x ≠ c)

/-- Length of the tuples produced by Python `zip(*lists)`: the minimum
list length, and 0 when there are no lists at all. -/
def minLen : List (List Str) → Nat
  | [] => 0
  | [l] => l.length
  | l :: l' :: ls => min l.length (minLen (l' :: ls))

/-- Python `list(zip(*lists))`: one tuple per index below the minimum
length, each tuple collecting the i-th element of every list. -/
def zipMin (ls : List (List Str)) : List (List Str) :=
  (List.range (minLen ls)).map (fun i => ls.map (fun l => l.getD i []))

/-- One expandable cell's split sequence, as a statement-level helper
(total; theorems use it only where the cell is a present string). -/
def splitOfCell (row : Row) (sep : Char) (c : String) : List Str :=
  match row.get c with
  | some (.vstr s) => splitSep sep s
  | _ => []

/-- Write each tuple component back into its column
(`row[column] = item[counter]`). -/
def setAll (row : Row) (cols : List String) (vals : List Str) : Row :=
  (cols.zip vals).foldl (fun r p => r.set p.1 (.vstr p.2)) row

/-- Number of rows `expand_df` emits for one source row: the minimum
split length over the (deduplicated) expandable columns. -/
def emissionCount (row : Row) (cols : List String) (sep : Char) : Nat :=
  minLen ((dedupKeys cols).map (splitOfCell row sep))

/-- The i-th row emitted for a source row: the i-th split element written
into each expandable column, then every cell stringified
(`row.apply(str)`). -/
def expandedItem (row : Row) (cols : List String) (sep : Char) (i : Nat) :
    Row :=
  rowApplyStr (setAll row (dedupKeys cols)
    ((dedupKeys cols).map (fun c => (splitOfCell row sep c).getD i [])))

/-- The body of `expand_df`'s outer loop (src/var_annot.py:59-67) for one
source row: build `columns_dict`, zip the split sequences, and emit one
stringified row per tuple. -/
def expandRow (row : Row) (cols : List String) (sep : Char) :
    Except PyErr (List Row) :=
  match exceptMapM (fun c =>
      match getStrCell row c with
      | .ok s => .ok (splitSep sep s)
      | .error e => .error e) (dedupKeys cols) with
  | .error e => .error e
  | .ok splits =>
    .ok ((zipMin splits).map (fun item =>
      rowApplyStr (setAll row (dedupKeys cols) item)))

/-- Embedding of `expand_df` (src/var_annot.py:46-68): expand every row
and concatenate the emitted rows in source order (the repeated
`new_df.append` plus the final `reset_index`). -/
def expand_df (df : List Row) (cols : List String) (sep : Char) :
    Except PyErr (List Row) :=
  match exceptMapM (fun row => expandRow row cols sep) df with
  | .error e => .error e
  | .ok chunks => .ok chunks.flatten

/-- The composite key string `CHROM-POS-REF-ALT` built by
`build_cprv_col`: later fields pass through `str(...)`. -/
def cprvStr (ch : Str) (p r v : Val) : Str :=
  ch ++ '-' :: p.toStr ++ '-' :: r.toStr ++ '-' :: v.toStr

/-- One row of `build_cprv_col` (src/var_annot.py:70-87):
`df['CPRV'] = df[chromosome]` then three `+= '-' + df[col].apply(str)`
steps.  A missing column raises KeyError; `+=` on a non-string
chromosome cell raises TypeError (after the position lookup, matching
Python's evaluation order). -/
def buildCprvRow (row : Row) (chromosome position reference variant : String) :
    Except PyErr Row :=
  match getCell row chromosome with
  | .error e => .error e
  | .ok chv =>
    match getCell row position with
    | .error e => .error e
    | .ok p =>
      match chv with
      | .vstr ch =>
        match getCell row reference with
        | .error e => .error e
        | .ok r =>
          match getCell row variant with
          | .error e => .error e
          | .ok v => .ok (row.set "CPRV" (.vstr (cprvStr ch p r v)))
      | _ => .error .typeError

/-- Embedding of `build_cprv_col` over the whole table. -/
def build_cprv_col (df : List Row)
    (chromosome position reference variant : String) :
    Except PyErr (List Row) :=
  exceptMapM (fun row => buildCprvRow row chromosome position reference variant) df

/-- A JSON object in the remote response for one variant: its numeric
fields as an ordered association list (only `allele_freq` is ever read). -/
abbrev Entry := List (String × Rat)

/-- The bulk response: a JSON object keyed by the submitted composite-key
strings, in insertion order. -/
abbrev JsonResponse := List (Str × Entry)

/-- Field access `item[field]` on a response entry. -/
def jsonGet (e : Entry) (field : String) : Option Rat :=
  match e.find? (fun p => p.1 = field) with
  | some p => some p.2
  | none => none

/-- Embedding of `get_allele_freqs` (src/var_annot.py:104-119): iterate
the response objects in order; keep `item['allele_freq']` when present
and append NaN (`none`) on KeyError. -/
def get_allele_freqs (json_response : JsonResponse) : List (Option Rat) :=
  json_response.map (fun kv =>
    match jsonGet kv.2 "allele_freq" with
    | some f => some f
    | none => none)

/-- Embedding of `get_cprv` (src/var_annot.py:121-130): iterating a dict
yields its keys in insertion order. -/
def get_cprv (json_response : JsonResponse) : List Str :=
  json_response.map Prod.fst

/-- Keyed lookup into the response object, as a statement-level helper. -/
def lookupResp (resp : JsonResponse) (k : Str) : Option Entry :=
  match resp.find? (fun p => p.1 = k) with
  | some p => some p.2
  | none => none

/-- Embedding of `get_exac_data` (src/var_annot.py:181-197) relative to
an arbitrary server response: build CPRV keys, turn the response into the
two aligned columns of `response_df`, then `df.merge(response_df,
on='CPRV')` — a pandas inner join, pairing every left row with every
response row of equal key, left order outermost — and drop CPRV. -/
def get_exac_data (df : List Row) (json_response : JsonResponse) :
    Except PyErr (List Row) :=
  match build_cprv_col df "#CHROM" "POS" "REF" "ALT" with
  | .error e => .error e
  | .ok df2 =>
    .ok ((df2.map (fun row =>
      ((get_cprv json_response).zip
        (get_allele_freqs json_response)).filterMap (fun p =>
        if row.get "CPRV" = some (.vstr p.1) then
          some (Row.dropCol
            (row.set "ALLELE_FREQUENCY(ExAC)" (.vfloat p.2)) "CPRV")
        else none))).flatten)

/-- Column projection `df[[c1, ..., cn]]` restricted to one row: the
selected cells in the selected order, KeyError when one is absent. -/
def selectCols (cols : List String) (row : Row) : Except PyErr Row :=
  exceptMapM (fun c =>
    match row.get c with
    | some v => .ok (c, v)
    | none => .error .keyError) cols

/-- Lookup of a decoded INFO value by header name, modelling column
selection on the frame returned by `convert_col_to_df`. -/
def headerGet (header : List Str) (cells : List Str) (c : String) :
    Option Str :=
  match (header.zip cells).find? (fun p => p.1 = c.data) with
  | some p => some p.2
  | none => none

/-- Embedding of `subset_vcf` (src/var_annot.py:157-179): decode INFO,
keep `DP, AO, AF, TYPE`, keep the four leading VCF columns, join the two
frames row-wise (both carry the default range index), and expand
`['TYPE', 'ALT', 'AF']` on commas. -/
def subset_vcf (df : List Row) : Except PyErr (List Row) :=
  match exceptMapM (fun row => getStrCell row "INFO") df with
  | .error e => .error e
  | .ok infoCol =>
    match convert_col_to_df infoCol '=' ';' with
    | .error e => .error e
    | .ok hc =>
      match exceptMapM (fun cells =>
          exceptMapM (fun c =>
            match headerGet hc.1 cells c with
            | some v => .ok (c, Val.vstr v)
            | none => .error .keyError) ["DP", "AO", "AF", "TYPE"]) hc.2 with
      | .error e => .error e
      | .ok infoRows =>
        match exceptMapM (selectCols ["#CHROM", "POS", "REF", "ALT"]) df with
        | .error e => .error e
        | .ok base =>
          expand_df (List.zipWith (fun a b => a ++ b) base infoRows)
            ["TYPE", "ALT", "AF"] ','

/-- The fixed output column order of `write_output`
(src/var_annot.py:154). -/
def output_columns : List String :=
  ["#CHROM", "POS", "REF", "ALT", "TYPE", "DP", "AO", "AF",
   "ALLELE_FREQUENCY(ExAC)"]

/-- Embedding of the column reordering in `write_output`
(src/var_annot.py:142-155): `df[[...]]` with the fixed column list.  The
path construction and `to_csv` serialization are file-system collaborators
outside the modelled core. -/
def write_output (df : List Row) : Except PyErr (List Row) :=
  exceptMapM (selectCols output_columns) df

/-- Re-encoding of one decoded row with the given separators and key
order, following the wording of the spec's decode invariant
(the claimed inverse of `convert_col_to_df`). -/
def encodeRow (key_value_sep elem_sep : Char) (keys vals : List Str) : Str :=
  joinSep elem_sep (List.zipWith (fun k v => k ++ key_value_sep :: v) keys vals)

theorem exceptMapM_ok_of_forall {f : α → Except PyErr β} {g : α → β}
    {l : List α} (h : ∀ x ∈ l, f x = .ok (g x)) :
    exceptMapM f l = .ok (l.map g) := by
  induction l with
  | nil => rfl
  | cons x xs ih =>
    simp only [exceptMapM]
    rw [h x (by simp), ih (fun y hy => h y (List.mem_cons_of_mem x hy))]
    rfl

theorem exceptMapM_ok_forall₂ {f : α → Except PyErr β} {l : List α}
    {ys : List β} (h : exceptMapM f l = .ok ys) :
    List.Forall₂ (fun x y => f x = .ok y) l ys := by
  induction l generalizing ys with
  | nil =>
    simp only [exceptMapM] at h
    cases h
    exact List.Forall₂.nil
  | cons x xs ih =>
    simp only [exceptMapM] at h
    cases hx : f x with
    | error e => rw [hx] at h; cases h
    | ok y =>
      rw [hx] at h
      cases hxs : exceptMapM f xs with
      | error e => rw [hxs] at h; cases h
      | ok ys' =>
        rw [hxs] at h
        cases h
        exact List.Forall₂.cons hx (ih hxs)

theorem exceptMapM_error_exists {f : α → Except PyErr β} {l : List α}
    {e : PyErr} (h : exceptMapM f l = .error e) :
    ∃ x ∈ l, f x = .error e := by
  induction l with
  | nil => simp only [exceptMapM] at h; cases h
  | cons x xs ih =>
    simp only [exceptMapM] at h
    cases hx : f x with
    | error e' =>
      rw [hx] at h
      cases h
      exact ⟨x, by simp, hx⟩
    | ok y =>
      rw [hx] at h
      cases hxs : exceptMapM f xs with
      | error e' =>
        rw [hxs] at h
        cases h
        obtain ⟨z, hz, hfz⟩ := ih hxs
        exact ⟨z, List.mem_cons_of_mem x hz, hfz⟩
      | ok ys => rw [hxs] at h; cases h

theorem Row.get_set_self (r : Row) (c : String) (v : Val) :
    (r.set c v).get c = some v := by
  induction r with
  | nil => simp [Row.set, Row.get]
  | cons p r ih =>
    by_cases h : p.1 = c
    · simp [Row.set, h, Row.get]
    · simp [Row.set, h, Row.get, ih]

theorem Row.get_set_ne (r : Row) (c c' : String) (v : Val) (h : c' ≠ c) :
    (r.set c v).get c' = r.get c' := by
  induction r with
  | nil => simp [Row.set, Row.get, Ne.symm h]
  | cons p r ih =>
    by_cases hp : p.1 = c
    · simp only [Row.set, if_pos hp, Row.get]
      rw [if_neg (fun hh => h hh.symm), if_neg (by rw [hp]; exact fun hh => h hh.symm)]
    · simp only [Row.set, if_neg hp, Row.get]
      by_cases hp' : p.1 = c'
      · rw [if_pos hp', if_pos hp']
      · rw [if_neg hp', if_neg hp', ih]

theorem Row.set_self (r : Row) (c : String) (v : Val)
    (h : r.get c = some v) : r.set c v = r := by
  induction r with
  | nil => simp [Row.get] at h
  | cons p r ih =>
    by_cases hp : p.1 = c
    · simp only [Row.get, if_pos hp] at h
      cases h
      simp only [Row.set, if_pos hp]
      rw [← hp]
    · simp only [Row.get, if_neg hp] at h
      simp only [Row.set, if_neg hp]
      rw [ih h]

theorem Row.get_dropCol_ne (r : Row) (c c' : String) (h : c' ≠ c) :
    (r.dropCol c).get c' = r.get c' := by
  induction r with
  | nil => rfl
  | cons p r ih =>
    by_cases hp : p.1 = c
    · simp only [Row.dropCol, List.filter]
      rw [decide_eq_false (by simpa using hp)]
      simp only [Row.get]
      rw [if_neg (by rw [hp]; exact fun hh => h hh.symm)]
      exact ih
    · simp only [Row.dropCol, List.filter]
      rw [decide_eq_true (by simpa using hp)]
      simp only [Row.get]
      by_cases hp' : p.1 = c'
      · rw [if_pos hp', if_pos hp']
      · rw [if_neg hp', if_neg hp']
        exact ih

theorem get_rowApplyStr (r : Row) (c : String) :
    (rowApplyStr r).get c = (r.get c).map (fun v => Val.vstr v.toStr) := by
  induction r with
  | nil => rfl
  | cons p r ih =>
    simp only [rowApplyStr, List.map, Row.get]
    by_cases hp : p.1 = c
    · rw [if_pos hp, if_pos hp]
      rfl
    · rw [if_neg hp, if_neg hp]
      exact ih

theorem mem_dedupKeys (l : List String) (c : String) :
    c ∈ dedupKeys l ↔ c ∈ l := by
  induction l with
  | nil => simp [dedupKeys]
  | cons x xs ih =>
    simp only [dedupKeys, List.mem_cons]
    constructor
    · rintro (h | h)
      · exact Or.inl h
      · exact Or.inr (ih.mp (List.mem_of_mem_filter h))
    · rintro (h | h)
      · exact Or.inl h
      · by_cases hx : c = x
        · exact Or.inl hx
        · refine Or.inr (List.mem_filter.mpr ⟨ih.mpr h, ?_⟩)
          simpa using hx

theorem nodup_dedupKeys (l : List String) : (dedupKeys l).Nodup := by
  induction l with
  | nil => simp [dedupKeys]
  | cons x xs ih =>
    simp only [dedupKeys]
    refine List.Nodup.cons ?_ (List.Nodup.filter _ ih)
    intro hmem
    have := (List.mem_filter.mp hmem).2
    simp at this

theorem dedupKeys_eq_nil_iff (l : List String) : dedupKeys l = [] ↔ l = [] := by
  cases l with
  | nil => simp [dedupKeys]
  | cons x xs => simp [dedupKeys]

theorem get_setAll_not_mem (r : Row) (cols : List String) (vals : List Str)
    (c : String) (h : c ∉ cols) : (setAll r cols vals).get c = r.get c := by
  induction cols generalizing r vals with
  | nil => rfl
  | cons c0 cols ih =>
    cases vals with
    | nil => rfl
    | cons v0 vals =>
      simp only [List.mem_cons, not_or] at h
      simp only [setAll, List.zip_cons_cons, List.foldl_cons]
      have := ih (r.set c0 (.vstr v0)) vals h.2
      simp only [setAll] at this
      rw [this, Row.get_set_ne r c0 c (.vstr v0) h.1]

theorem get_setAll_mem (r : Row) (cols : List String) (vals : List Str)
    (hnd : cols.Nodup) (c : String) (v : Str)
    (hmem : (c, v) ∈ cols.zip vals) :
    (setAll r cols vals).get c = some (.vstr v) := by
  induction cols generalizing r vals with
  | nil => simp [List.zip] at hmem
  | cons c0 cols ih =>
    cases vals with
    | nil => simp [List.zip] at hmem
    | cons v0 vals =>
      simp only [List.zip_cons_cons, List.mem_cons] at hmem
      simp only [List.nodup_cons] at hnd
      simp only [setAll, List.zip_cons_cons, List.foldl_cons]
      rcases hmem with heq | hmem
      · cases heq
        have : c ∉ cols := hnd.1
        have hrest := get_setAll_not_mem (r.set c (.vstr v)) cols vals c this
        simp only [setAll] at hrest
        rw [hrest, Row.get_set_self]
      · have := ih (r.set c0 (.vstr v0)) vals hnd.2 hmem
        simpa only [setAll] using this

theorem setAll_id (r : Row) (cols : List String) (vals : List Str)
    (h : ∀ p ∈ cols.zip vals, r.get p.1 = some (.vstr p.2)) :
    setAll r cols vals = r := by
  induction cols generalizing r vals with
  | nil => rfl
  | cons c0 cols ih =>
    cases vals with
    | nil => rfl
    | cons v0 vals =>
      simp only [setAll, List.zip_cons_cons, List.foldl_cons]
      rw [Row.set_self r c0 (.vstr v0) (h (c0, v0) (by simp))]
      have := ih r vals (fun p hp => h p (List.mem_cons_of_mem _ hp))
      simpa only [setAll] using this

theorem mem_zip_map {α β : Type} (f : α → β) (l : List α) (x : α)
    (h : x ∈ l) : (x, f x) ∈ l.zip (l.map f) := by
  induction l with
  | nil => cases h
  | cons y ys ih =>
    simp only [List.map, List.zip_cons_cons, List.mem_cons]
    rcases List.mem_cons.mp h with h | h
    · exact Or.inl (by rw [h])
    · exact Or.inr (ih h)

theorem minLen_le (ls : List (List Str)) (l : List Str) (h : l ∈ ls) :
    minLen ls ≤ l.length := by
  induction ls with
  | nil => cases h
  | cons x xs ih =>
    cases xs with
    | nil =>
      simp only [List.mem_cons] at h
      rcases h with h | h
      · rw [h]; exact Nat.le_refl _
      · cases h
    | cons y ys =>
      simp only [minLen]
      rcases List.mem_cons.mp h with h | h
      · rw [h]; exact Nat.min_le_left _ _
      · exact Nat.le_trans (Nat.min_le_right _ _) (ih h)

theorem minLen_const (ls : List (List Str)) (k : Nat) (hne : ls ≠ [])
    (h : ∀ l ∈ ls, l.length = k) : minLen ls = k := by
  induction ls with
  | nil => exact absurd rfl hne
  | cons x xs ih =>
    cases xs with
    | nil => simpa using h x (by simp)
    | cons y ys =>
      simp only [minLen]
      rw [h x (by simp), ih (by simp) (fun l hl => h l (List.mem_cons_of_mem x hl))]
      exact Nat.min_self k

theorem digitCh_isDigit (d : Nat) : (digitCh d).isDigit := by
  match d with
  | 0 | 1 | 2 | 3 | 4 | 5 | 6 | 7 | 8 => decide
  | n + 9 => exact (by decide : ('9' : Char).isDigit)

theorem digitCh_ne_zero (d : Nat) (h1 : d ≠ 0) : digitCh d ≠ '0' := by
  match d with
  | 0 => exact absurd rfl h1
  | 1 | 2 | 3 | 4 | 5 | 6 | 7 | 8 => decide
  | n + 9 => exact (by decide : ('9' : Char) ≠ '0')

theorem natDigitsLE_ne_nil (fuel n : Nat) (h0 : 0 < n) (hf : n ≤ fuel) :
    natDigitsLE fuel n ≠ [] := by
  cases fuel with
  | zero => omega
  | succ fuel =>
    cases n with
    | zero => omega
    | succ n => simp [natDigitsLE]

theorem natDigitsLE_getLast?_ne_zero (fuel n : Nat) (h0 : 0 < n)
    (hf : n ≤ fuel) :
    ∀ d, (natDigitsLE fuel n).getLast? = some d → d ≠ 0 := by
  induction fuel generalizing n with
  | zero => omega
  | succ fuel ih =>
    intro d hd
    cases n with
    | zero => omega
    | succ m =>
      simp only [natDigitsLE] at hd
      by_cases hq : (m + 1) / 10 = 0
      · rw [hq] at hd
        have hz : natDigitsLE fuel 0 = [] := by cases fuel <;> rfl
        rw [hz] at hd
        simp only [List.getLast?_singleton, Option.some.injEq] at hd
        have hlt : m + 1 < 10 := by omega
        have : (m + 1) % 10 = m + 1 := Nat.mod_eq_of_lt hlt
        omega
      · have hq0 : 0 < (m + 1) / 10 := Nat.pos_of_ne_zero hq
        have hqf : (m + 1) / 10 ≤ fuel := by
          have := Nat.div_lt_self (by omega : 0 < m + 1) (by omega : 1 < 10)
          omega
        have hnn := natDigitsLE_ne_nil fuel ((m + 1) / 10) hq0 hqf
        cases ht : natDigitsLE fuel ((m + 1) / 10) with
        | nil => exact absurd ht hnn
        | cons a as =>
          rw [ht, List.getLast?_cons_cons] at hd
          exact ih ((m + 1) / 10) hq0 hqf d (by rw [ht]; exact hd)

theorem natDigitsLE_all_lt_ten (fuel n : Nat) :
    ∀ d ∈ natDigitsLE fuel n, d < 10 := by
  induction fuel generalizing n with
  | zero => intro d hd; simp [natDigitsLE] at hd
  | succ fuel ih =>
    intro d hd
    cases n with
    | zero => simp [natDigitsLE] at hd
    | succ m =>
      simp only [natDigitsLE, List.mem_cons] at hd
      rcases hd with hd | hd
      · rw [hd]; exact Nat.mod_lt _ (by omega)
      · exact ih _ d hd

theorem natToStr_isDigit (n : Nat) : ∀ ch ∈ natToStr n, ch.isDigit := by
  intro ch hch
  unfold natToStr at hch
  split at hch
  · simp only [List.mem_singleton] at hch
    rw [hch]; decide
  · rw [List.mem_reverse] at hch
    obtain ⟨d, _, hd⟩ := List.mem_map.mp hch
    rw [← hd]
    exact digitCh_isDigit d

theorem natToStr_no_dot (n : Nat) : '.' ∉ natToStr n := by
  intro h
  have := natToStr_isDigit n '.' h
  exact absurd this (by decide)

theorem natToStr_head_ne_zero (n : Nat) (h : n ≠ 0) :
    (natToStr n).head? ≠ some '0' := by
  unfold natToStr
  rw [if_neg h]
  rw [List.head?_reverse, List.getLast?_map]
  intro hcon
  cases hlast : (natDigitsLE n n).getLast? with
  | none => rw [hlast] at hcon; cases hcon
  | some d =>
    rw [hlast] at hcon
    have hd0 := natDigitsLE_getLast?_ne_zero n n (Nat.pos_of_ne_zero h)
      (Nat.le_refl n) d hlast
    exact digitCh_ne_zero d hd0 (Option.some.inj hcon)

theorem natToStr_zero : natToStr 0 = ['0'] := rfl

theorem find?_pairs_of_nodup {β : Type} (l : List (Str × β)) (k : Str)
    (b : β) (hnd : (l.map Prod.fst).Nodup) (hmem : (k, b) ∈ l) :
    l.find? (fun p => p.1 = k) = some (k, b) := by
  induction l with
  | nil => cases hmem
  | cons p ps ih =>
    simp only [List.map, List.nodup_cons] at hnd
    rcases List.mem_cons.mp hmem with heq | hmem'
    · cases heq
      rw [List.find?_cons_of_pos _ (by simp)]
    · have hne : p.1 ≠ k := by
        intro hk
        exact hnd.1 (hk ▸ (List.mem_map.mpr ⟨(k, b), hmem', rfl⟩))
      rw [List.find?_cons_of_neg _ (by simpa using hne)]
      exact ih hnd.2 hmem'

theorem expandRow_eq (row : Row) (cols : List String) (sep : Char)
    (h : ∀ c ∈ dedupKeys cols, ∃ s, row.get c = some (.vstr s)) :
    expandRow row cols sep =
      .ok ((List.range (emissionCount row cols sep)).map
        (expandedItem row cols sep)) := by
  have hf : ∀ c ∈ dedupKeys cols,
      (match getStrCell row c with
       | .ok s => Except.ok (splitSep sep s)
       | .error e => Except.error e) = .ok (splitOfCell row sep c) := by
    intro c hc
    obtain ⟨s, hs⟩ := h c hc
    simp [getStrCell, hs, splitOfCell]
  unfold expandRow
  rw [exceptMapM_ok_of_forall hf]
  simp only [zipMin, emissionCount, expandedItem, List.map_map]
  rfl

theorem expand_df_eq (df : List Row) (cols : List String) (sep : Char)
    (h : ∀ row ∈ df, ∀ c ∈ dedupKeys cols, ∃ s, row.get c = some (.vstr s)) :
    expand_df df cols sep =
      .ok ((df.map (fun row => (List.range (emissionCount row cols sep)).map
        (expandedItem row cols sep))).flatten) := by
  unfold expand_df
  rw [exceptMapM_ok_of_forall
    (fun row hrow => expandRow_eq row cols sep (h row hrow))]

theorem expandedItem_get_mem (row : Row) (cols : List String) (sep : Char)
    (i : Nat) (c : String) (hc : c ∈ cols) :
    (expandedItem row cols sep i).get c =
      some (.vstr ((splitOfCell row sep c).getD i [])) := by
  unfold expandedItem
  rw [get_rowApplyStr]
  rw [get_setAll_mem _ _ _ (nodup_dedupKeys cols) c
    ((splitOfCell row sep c).getD i [])
    (mem_zip_map _ _ c ((mem_dedupKeys cols c).mpr hc))]
  rfl

theorem expandedItem_get_not_mem (row : Row) (cols : List String) (sep : Char)
    (i : Nat) (c : String) (hc : c ∉ cols) :
    (expandedItem row cols sep i).get c =
      (row.get c).map (fun v => Val.vstr v.toStr) := by
  unfold expandedItem
  rw [get_rowApplyStr]
  rw [get_setAll_not_mem _ _ _ c (fun hm => hc ((mem_dedupKeys cols c).mp hm))]

theorem filterMap_count_one {γ : Type} (l : List (Str × Option Rat))
    (key : Str) (g : Str × Option Rat → γ)
    (h : (l.map Prod.fst).count key = 1) :
    ∃ p ∈ l, p.1 = key ∧
      l.filterMap (fun q => if q.1 = key then some (g q) else none) = [g p] := by
  induction l with
  | nil => simp at h
  | cons p ps ih =>
    simp only [List.map, List.count_cons] at h
    by_cases hp : p.1 = key
    · have hcnt : (ps.map Prod.fst).count key = 0 := by
        rw [if_pos (by exact beq_iff_eq.mpr hp)] at h
        omega
      have hnone : ∀ q ∈ ps, q.1 ≠ key := by
        intro q hq hqk
        have : key ∈ ps.map Prod.fst := List.mem_map.mpr ⟨q, hq, hqk⟩
        rw [List.count_eq_zero] at hcnt
        exact hcnt this
      refine ⟨p, by simp, hp, ?_⟩
      simp only [List.filterMap_cons, if_pos hp]
      have : ps.filterMap (fun q => if q.1 = key then some (g q) else none) = [] := by
        rw [List.filterMap_eq_nil_iff]
        intro q hq
        rw [if_neg (hnone q hq)]
      rw [this]
    · rw [if_neg (by simpa using hp)] at h
      simp only [Nat.add_zero] at h
      obtain ⟨q, hq, hqk, heq⟩ := ih h
      refine ⟨q, List.mem_cons_of_mem p hq, hqk, ?_⟩
      simp only [List.filterMap_cons, if_neg hp]
      exact heq

theorem exceptMapM_ok_mem {f : α → Except PyErr β} {l : List α}
    {ys : List β} (h : exceptMapM f l = .ok ys) :
    ∀ x ∈ l, ∃ y, f x = .ok y := by
  induction l generalizing ys with
  | nil => intro x hx; cases hx
  | cons z zs ih =>
    intro x hx
    simp only [exceptMapM] at h
    cases hz : f z with
    | error e => rw [hz] at h; cases h
    | ok y =>
      rw [hz] at h
      cases hzs : exceptMapM f zs with
      | error e => rw [hzs] at h; cases h
      | ok ys' =>
        rcases List.mem_cons.mp hx with hx | hx
        · exact ⟨y, hx ▸ hz⟩
        · exact ih hzs x hx

theorem zip_self_map {α β : Type} (l : List α) (f : α → β) :
    l.zip (l.map f) = l.map (fun a => (a, f a)) := by
  induction l with
  | nil => rfl
  | cons x xs ih => simp [ih]

theorem flatten_map_singleton {α β : Type} (l : List α) (g : α → β) :
    (l.map (fun x => [g x])).flatten = l.map g := by
  induction l with
  | nil => rfl
  | cons x xs ih => simp [ih]

theorem length_flatten_of_singletons {α : Type} (l : List (List α))
    (h : ∀ x ∈ l, x.length = 1) : l.flatten.length = l.length := by
  induction l with
  | nil => rfl
  | cons x xs ih =>
    simp only [List.flatten_cons, List.length_append, List.length_cons]
    rw [h x (by simp), ih (fun y hy => h y (List.mem_cons_of_mem x hy))]
    omega

/-- C3: for every input row whose designated expandable columns all split
on the delimiter into sequences of the same length k, expansion emits
exactly k output rows; output row i takes the i-th element from each
expandable column and copies every non-expandable cell of the source row
(re-serialized as a string, as the spec's RowExpander contract states);
emission per source row follows split order and source-row order is
preserved across the whole output (the flatMap equation).  The designated
column set is non-empty, as a split length k is only determined by at
least one expandable column. -/
theorem expand_df_cardinality (df : List Row) (cols : List String)
    (sep : Char) (k : Row → Nat) (hcols : cols ≠ [])
    (hcell : ∀ row ∈ df, ∀ c ∈ cols, ∃ s, row.get c = some (.vstr s) ∧
      (splitSep sep s).length = k row) :
    expand_df df cols sep =
      .ok ((df.map (fun row => (List.range (k row)).map
        (expandedItem row cols sep))).flatten) ∧
    (∀ row ∈ df,
      ((List.range (k row)).map (expandedItem row cols sep)).length = k row) ∧
    (∀ row ∈ df, ∀ i : Nat, ∀ c ∈ cols,
      (expandedItem row cols sep i).get c =
        some (.vstr ((splitOfCell row sep c).getD i []))) ∧
    (∀ row ∈ df, ∀ i : Nat, ∀ c : String, c ∉ cols →
      (expandedItem row cols sep i).get c =
        (row.get c).map (fun v => Val.vstr v.toStr)) := by
  have hemit : ∀ row ∈ df, emissionCount row cols sep = k row := by
    intro row hrow
    unfold emissionCount
    apply minLen_const
    · simp only [ne_eq, List.map_eq_nil_iff]
      rw [dedupKeys_eq_nil_iff]
      exact hcols
    · intro l hl
      obtain ⟨c, hc, hcl⟩ := List.mem_map.mp hl
      obtain ⟨s, hs, hk⟩ := hcell row hrow c ((mem_dedupKeys cols c).mp hc)
      rw [← hcl]
      unfold splitOfCell
      rw [hs]
      exact hk
  refine ⟨?_, ?_, ?_, ?_⟩
  · rw [expand_df_eq df cols sep (fun row hrow c hc => by
      obtain ⟨s, hs, _⟩ := hcell row hrow c ((mem_dedupKeys cols c).mp hc)
      exact ⟨s, hs⟩)]
    congr 1
    congr 1
    apply List.map_congr_left
    intro row hrow
    rw [hemit row hrow]
  · intro row hrow
    simp
  · intro row _ i c hc
    exact expandedItem_get_mem row cols sep i c hc
  · intro row _ i c hc
    exact expandedItem_get_not_mem row cols sep i c hc

def mismatchRow : Row := [("A", Val.vstr (cs "x,y")), ("B", Val.vstr (cs "u"))]

/-- C4 counterexample: on a row whose expandable columns split to lengths
2 and 1, `expand_df` does not fail at all: it returns normally, zipping
to the shortest length and emitting a single truncated row. -/
theorem expand_df_mismatch_no_failure :
    expand_df [mismatchRow] ["A", "B"] ',' =
      .ok [[("A", Val.vstr (cs "x")), ("B", Val.vstr (cs "u"))]] := by
  decide

/-- C4 amended: when the expandable columns of a row split to differing
lengths, `expand_df` does not fail: Python's `zip` silently truncates to
the shortest split sequence, emitting `emissionCount` (the minimum split
length) rows per source row. -/
theorem expand_df_zip_shortest (df : List Row) (cols : List String)
    (sep : Char)
    (h : ∀ row ∈ df, ∀ c ∈ cols, ∃ s, row.get c = some (.vstr s)) :
    expand_df df cols sep =
      .ok ((df.map (fun row => (List.range (emissionCount row cols sep)).map
        (expandedItem row cols sep))).flatten) ∧
    ∀ row ∈ df, ∀ c ∈ cols,
      emissionCount row cols sep ≤ (splitOfCell row sep c).length := by
  constructor
  · exact expand_df_eq df cols sep
      (fun row hrow c hc => h row hrow c ((mem_dedupKeys cols c).mp hc))
  · intro row _ c hc
    exact minLen_le _ _ (List.mem_map.mpr ⟨c, (mem_dedupKeys cols c).mpr hc, rfl⟩)

/-- C4 amended witness at the mismatched concrete row: the minimum split
length there is 1 and expansion succeeds. -/
theorem expand_df_zip_shortest_witness :
    expand_df [mismatchRow] ["A", "B"] ',' =
      .ok (([mismatchRow].map (fun row =>
        (List.range (emissionCount row ["A", "B"] ',')).map
          (expandedItem row ["A", "B"] ','))).flatten) ∧
    emissionCount mismatchRow ["A", "B"] ',' = 1 := by
  refine ⟨(expand_df_zip_shortest [mismatchRow] ["A", "B"] ',' ?_).1, by decide⟩
  intro row hrow c hc
  rw [List.mem_singleton] at hrow
  subst hrow
  rcases List.mem_cons.mp hc with h1 | h1
  · exact ⟨cs "x,y", by rw [h1]; decide⟩
  · rw [List.mem_singleton] at h1
    exact ⟨cs "u", by rw [h1]; decide⟩

/-- C6: a row whose expandable cells contain no delimiter passes through
expansion as exactly one row, every cell kept with the same content and
re-serialized as a string (`row.apply(str)`). -/
theorem expand_df_identity (df : List Row) (cols : List String) (sep : Char)
    (hcols : cols ≠ [])
    (h : ∀ row ∈ df, ∀ c ∈ cols, ∃ s, row.get c = some (.vstr s) ∧ sep ∉ s) :
    expand_df df cols sep = .ok (df.map rowApplyStr) := by
  rw [expand_df_eq df cols sep (fun row hrow c hc => by
    obtain ⟨s, hs, _⟩ := h row hrow c ((mem_dedupKeys cols c).mp hc)
    exact ⟨s, hs⟩)]
  have hone : ∀ row ∈ df, emissionCount row cols sep = 1 := by
    intro row hrow
    unfold emissionCount
    apply minLen_const
    · simp only [ne_eq, List.map_eq_nil_iff]
      rw [dedupKeys_eq_nil_iff]
      exact hcols
    · intro l hl
      obtain ⟨c, hc, hcl⟩ := List.mem_map.mp hl
      obtain ⟨s, hs, hsep⟩ := h row hrow c ((mem_dedupKeys cols c).mp hc)
      rw [← hcl]
      simp only [splitOfCell, hs]
      rw [splitSep_no_sep sep s hsep]
      rfl
  have hitem : ∀ row ∈ df, expandedItem row cols sep 0 = rowApplyStr row := by
    intro row hrow
    unfold expandedItem
    congr 1
    apply setAll_id
    intro p hp
    rw [zip_self_map] at hp
    obtain ⟨c, hc, hpc⟩ := List.mem_map.mp hp
    obtain ⟨s, hs, hsep⟩ := h row hrow c ((mem_dedupKeys cols c).mp hc)
    rw [← hpc]
    simp only [splitOfCell, hs]
    rw [splitSep_no_sep sep s hsep]
    rfl
  congr 1
  have : df.map (fun row => (List.range (emissionCount row cols sep)).map
      (expandedItem row cols sep)) = df.map (fun row => [rowApplyStr row]) := by
    apply List.map_congr_left
    intro row hrow
    have hr1 : List.range 1 = [0] := by decide
    rw [hone row hrow, hr1]
    simp only [List.map_cons, List.map_nil]
    rw [hitem row hrow]
  rw [this, flatten_map_singleton]

/-- C6 witness: a concrete two-column row with no delimiter in the
expandable cells, an integer cell included, passes through unchanged up
to stringification. -/
theorem expand_df_identity_witness :
    expand_df [[("ALT", Val.vstr (cs "T")), ("POS", Val.vint 100)]]
      ["ALT"] ',' =
      .ok [[("ALT", Val.vstr (cs "T")), ("POS", Val.vstr (cs "100"))]] := by
  have h := expand_df_identity [[("ALT", Val.vstr (cs "T")),
      ("POS", Val.vint 100)]] ["ALT"] ',' (by decide) ?_
  · rw [h]
    decide
  · intro row hrow c hc
    rw [List.mem_singleton] at hrow
    subst hrow
    rw [List.mem_singleton] at hc
    exact ⟨cs "T", by rw [hc]; decide⟩

/-- C3 witness: a row with two expandable columns of split length 2 and a
non-expandable integer column expands to exactly two rows. -/
theorem expand_df_cardinality_witness :
    expand_df [[("X", Val.vstr (cs "a,b")), ("Y", Val.vstr (cs "c,d")),
        ("Z", Val.vint 7)]] ["X", "Y"] ',' =
      .ok [[("X", Val.vstr (cs "a")), ("Y", Val.vstr (cs "c")),
            ("Z", Val.vstr (cs "7"))],
           [("X", Val.vstr (cs "b")), ("Y", Val.vstr (cs "d")),
            ("Z", Val.vstr (cs "7"))]] := by
  have h := (expand_df_cardinality [[("X", Val.vstr (cs "a,b")),
      ("Y", Val.vstr (cs "c,d")), ("Z", Val.vint 7)]] ["X", "Y"] ','
      (fun _ => 2) (by decide) ?_).1
  · rw [h]
    decide
  · intro row hrow c hc
    rw [List.mem_singleton] at hrow
    subst hrow
    rcases List.mem_cons.mp hc with h1 | h1
    · exact ⟨cs "a,b", by rw [h1]; decide⟩
    · rw [List.mem_singleton] at h1
      exact ⟨cs "c,d", by rw [h1]; decide⟩

theorem exceptMapM_map_ok {β γ : Type} {f : β → Except PyErr γ} {m : α → β}
    {g : α → γ} {l : List α} (h : ∀ x ∈ l, f (m x) = .ok (g x)) :
    exceptMapM f (l.map m) = .ok (l.map g) := by
  induction l with
  | nil => rfl
  | cons x xs ih =>
    simp only [List.map_cons, exceptMapM]
    rw [h x (by simp), ih (fun y hy => h y (List.mem_cons_of_mem x hy))]

theorem mem_zipWith_exists {α β γ : Type} {f : α → β → γ} {l1 : List α}
    {l2 : List β} {c : γ} (h : c ∈ List.zipWith f l1 l2) :
    ∃ a ∈ l1, ∃ b ∈ l2, c = f a b := by
  induction l1 generalizing l2 with
  | nil => cases h
  | cons x xs ih =>
    cases l2 with
    | nil => cases h
    | cons y ys =>
      simp only [List.zipWith_cons_cons, List.mem_cons] at h
      rcases h with h | h
      · exact ⟨x, by simp, y, by simp, h⟩
      · obtain ⟨a, ha, b, hb, hc⟩ := ih h
        exact ⟨a, List.mem_cons_of_mem x ha, b, List.mem_cons_of_mem y hb, hc⟩

theorem splitSep_pair (kv : Char) (k v : Str) (hk : kv ∉ k) (hv : kv ∉ v) :
    splitSep kv (k ++ kv :: v) = [k, v] := by
  rw [splitSep_append_cons kv k v hk, splitSep_no_sep kv v hv]

theorem encodeRow_splits (kv es : Char) (keys vals : List Str)
    (hne : keys ≠ []) (hlen : vals.length = keys.length)
    (hkf : ∀ k ∈ keys, es ∉ k) (hvf : ∀ v ∈ vals, es ∉ v)
    (hkves : kv ≠ es) :
    splitSep es (encodeRow kv es keys vals) =
      List.zipWith (fun k v => k ++ kv :: v) keys vals := by
  unfold encodeRow
  apply splitSep_joinSep
  · intro hz
    have := congrArg List.length hz
    rw [List.length_zipWith, hlen] at this
    simp only [List.length_nil, Nat.min_self] at this
    exact hne (List.eq_nil_of_length_eq_zero this)
  · intro p hp
    obtain ⟨k, hkm, v, hvm, hpe⟩ := mem_zipWith_exists hp
    rw [hpe]
    intro hmem
    rcases List.mem_append.mp hmem with hm | hm
    · exact hkf k hkm hm
    · rcases List.mem_cons.mp hm with hm | hm
      · exact hkves hm.symm
      · exact hvf v hvm hm

theorem map_headD_zipWith (kv : Char) (keys vals : List Str)
    (hlen : vals.length = keys.length) (hkf : ∀ k ∈ keys, kv ∉ k) :
    (List.zipWith (fun k v => k ++ kv :: v) keys vals).map
      (fun e => (splitSep kv e).headD []) = keys := by
  induction keys generalizing vals with
  | nil => simp
  | cons k ks ih =>
    cases vals with
    | nil => simp at hlen
    | cons v vs =>
      simp only [List.length_cons] at hlen
      simp only [List.zipWith_cons_cons, List.map_cons]
      rw [splitSep_append_cons kv k v (hkf k (by simp))]
      simp only [List.headD_cons]
      rw [ih vs (by omega) (fun x hx => hkf x (List.mem_cons_of_mem k hx))]

theorem cells_of_encoded (kv : Char) (keys vals : List Str)
    (hlen : vals.length = keys.length) (hkf : ∀ k ∈ keys, kv ∉ k)
    (hvf : ∀ v ∈ vals, kv ∉ v) :
    exceptMapM (fun e =>
        match (splitSep kv e).get? 1 with
        | some v => Except.ok v
        | none => Except.error PyErr.noKeyValueSep)
      (List.zipWith (fun k v => k ++ kv :: v) keys vals) = .ok vals := by
  induction keys generalizing vals with
  | nil =>
    simp only [List.length_nil] at hlen
    rw [List.eq_nil_of_length_eq_zero hlen]
    rfl
  | cons k ks ih =>
    cases vals with
    | nil => simp at hlen
    | cons v vs =>
      simp only [List.length_cons] at hlen
      simp only [List.zipWith_cons_cons, exceptMapM]
      rw [splitSep_pair kv k v (hkf k (by simp)) (hvf v (by simp))]
      simp only [List.get?_cons_succ, List.get?_cons_zero]
      rw [ih vs (by omega) (fun x hx => hkf x (List.mem_cons_of_mem k hx))
        (fun x hx => hvf x (List.mem_cons_of_mem v hx))]

/-- C5: a packed column made of rows `k1=v1;k2=v2;...` that all list the
same keys in the same order, with keys and values free of both
separators, decodes to exactly those keys (as header) and values (as
cells); re-encoding every decoded row with the same separators and key
order restores the original packed string of that row. -/
theorem convert_col_to_df_roundtrip (kv es : Char) (keys : List Str)
    (rowsData : List (List Str)) (col : List Str)
    (hcol : col = rowsData.map (encodeRow kv es keys))
    (hsep : kv ≠ es) (hk : keys ≠ []) (hr : rowsData ≠ [])
    (hlen : ∀ vals ∈ rowsData, vals.length = keys.length)
    (hkfree : ∀ k ∈ keys, es ∉ k ∧ kv ∉ k)
    (hvfree : ∀ vals ∈ rowsData, ∀ v ∈ vals, es ∉ v ∧ kv ∉ v) :
    ∃ header cells, convert_col_to_df col kv es = .ok (header, cells) ∧
      cells.map (encodeRow kv es header) = col := by
  refine ⟨keys, rowsData, ?_, hcol.symm⟩
  subst hcol
  cases rowsData with
  | nil => exact absurd rfl hr
  | cons d0 drest =>
    have hzip : ∀ vals ∈ d0 :: drest,
        splitSep es (encodeRow kv es keys vals) =
          List.zipWith (fun k v => k ++ kv :: v) keys vals := by
      intro vals hvals
      exact encodeRow_splits kv es keys vals hk (hlen vals hvals)
        (fun x hx => (hkfree x hx).1) (fun x hx => (hvfree vals hvals x hx).1)
        hsep
    have hsplits : splitSep es (encodeRow kv es keys d0) ::
        (drest.map (encodeRow kv es keys)).map (splitSep es) =
        List.zipWith (fun k v => k ++ kv :: v) keys d0 ::
          drest.map (fun vals =>
            List.zipWith (fun k v => k ++ kv :: v) keys vals) := by
      rw [hzip d0 (by simp), List.map_map]
      congr 1
      apply List.map_congr_left
      intro vals hvals
      exact hzip vals (List.mem_cons_of_mem d0 hvals)
    simp only [List.map_cons, convert_col_to_df]
    rw [hsplits, hzip d0 (by simp)]
    have hlens : ∀ vals ∈ d0 :: drest,
        (List.zipWith (fun k v => k ++ kv :: v) keys vals).length =
          keys.length := by
      intro vals hvals
      rw [List.length_zipWith, hlen vals hvals]
      exact Nat.min_self _
    have hany : ¬((List.zipWith (fun k v => k ++ kv :: v) keys d0 ::
        drest.map (fun vals =>
          List.zipWith (fun k v => k ++ kv :: v) keys vals)).any
        (fun s => s.length ≠
          (List.zipWith (fun k v => k ++ kv :: v) keys d0).length) = true) := by
      rw [List.any_eq_true]
      push_neg
      intro x hx
      rcases List.mem_cons.mp hx with hx | hx
      · simp [hx]
      · obtain ⟨vals, hvals, hveq⟩ := List.mem_map.mp hx
        rw [← hveq]
        rw [hlens vals (List.mem_cons_of_mem d0 hvals)]
        rw [hlens d0 (by simp)]
        simp
    rw [if_neg hany]
    have hcells : exceptMapM (fun s => exceptMapM (fun e =>
        match (splitSep kv e).get? 1 with
        | some v => Except.ok v
        | none => Except.error PyErr.noKeyValueSep) s)
        ((d0 :: drest).map (fun vals =>
          List.zipWith (fun k v => k ++ kv :: v) keys vals)) =
        .ok ((d0 :: drest).map id) := by
      apply exceptMapM_map_ok
      intro vals hvals
      exact cells_of_encoded kv keys vals (hlen vals hvals)
        (fun x hx => (hkfree x hx).2) (fun x hx => (hvfree vals hvals x hx).2)
    simp only [List.map_cons] at hcells
    rw [hcells]
    rw [map_headD_zipWith kv keys d0 (hlen d0 (by simp))
      (fun x hx => (hkfree x hx).2)]
    simp

/-- C5 witness: a concrete two-row column decodes and re-encodes to
itself. -/
theorem convert_col_to_df_roundtrip_witness :
    ∃ header cells,
      convert_col_to_df [cs "DP=50;AO=20", cs "DP=7;AO=3"] '=' ';' =
        .ok (header, cells) ∧
      cells.map (encodeRow '=' ';' header) =
        [cs "DP=50;AO=20", cs "DP=7;AO=3"] := by
  apply convert_col_to_df_roundtrip '=' ';' [cs "DP", cs "AO"]
    [[cs "50", cs "20"], [cs "7", cs "3"]]
  · decide
  · decide
  · decide
  · decide
  · decide
  · decide
  · decide

/-- C10: the decoder is partial at its interface: it returns normally
only when every element of every row's packed string (split on the
element separator) contains the key-value separator; and when every
element does contain it, the index-out-of-range branch
(`item.split(key_value_sep)[1]` on a separator-free element, the
`noKeyValueSep` error) is unreachable. -/
theorem convert_col_to_df_only_separated (col : List Str) (kv es : Char) :
    (∀ header cells, convert_col_to_df col kv es = .ok (header, cells) →
      ∀ s ∈ col, ∀ e ∈ splitSep es s, kv ∈ e) ∧
    ((∀ s ∈ col, ∀ e ∈ splitSep es s, kv ∈ e) →
      convert_col_to_df col kv es ≠ .error .noKeyValueSep) := by
  constructor
  · intro header cells hok s hs e he
    cases col with
    | nil => cases hs
    | cons c0 crest =>
      simp only [convert_col_to_df] at hok
      by_cases hany : (((c0 :: crest).map (splitSep es)).any
          (fun s => s.length ≠ (splitSep es c0).length)) = true
      · rw [if_pos hany] at hok
        exact Except.noConfusion hok
      · rw [if_neg hany] at hok
        cases hmm : exceptMapM (fun s => exceptMapM (fun e =>
            match (splitSep kv e).get? 1 with
            | some v => Except.ok v
            | none => Except.error PyErr.noKeyValueSep) s)
            ((c0 :: crest).map (splitSep es)) with
        | error e2 => rw [hmm] at hok; exact Except.noConfusion hok
        | ok cls =>
          have hsmem : splitSep es s ∈ (c0 :: crest).map (splitSep es) :=
            List.mem_map_of_mem (splitSep es) hs
          obtain ⟨rowres, hrow⟩ := exceptMapM_ok_mem hmm _ hsmem
          obtain ⟨v, hv⟩ := exceptMapM_ok_mem hrow e he
          cases hg : (splitSep kv e).get? 1 with
          | none => rw [hg] at hv; exact Except.noConfusion hv
          | some v2 =>
            have hlt : 1 < (splitSep kv e).length :=
              (List.get?_eq_some.mp hg).1
            exact (mem_iff_two_le_splitSep kv e).mpr hlt
  · intro hall hcon
    cases col with
    | nil => simp [convert_col_to_df] at hcon
    | cons c0 crest =>
      simp only [convert_col_to_df] at hcon
      by_cases hany : (((c0 :: crest).map (splitSep es)).any
          (fun s => s.length ≠ (splitSep es c0).length)) = true
      · rw [if_pos hany] at hcon
        simp at hcon
      · rw [if_neg hany] at hcon
        cases hmm : exceptMapM (fun s => exceptMapM (fun e =>
            match (splitSep kv e).get? 1 with
            | some v => Except.ok v
            | none => Except.error PyErr.noKeyValueSep) s)
            ((c0 :: crest).map (splitSep es)) with
        | ok cls => rw [hmm] at hcon; simp at hcon
        | error e2 =>
          rw [hmm] at hcon
          have he2 : e2 = PyErr.noKeyValueSep := Except.error.inj hcon
          subst he2
          obtain ⟨srow, hsrow, hserr⟩ := exceptMapM_error_exists hmm
          obtain ⟨sorig, hsorig, hseq⟩ := List.mem_map.mp hsrow
          obtain ⟨e, hemem, heerr⟩ := exceptMapM_error_exists hserr
          cases hg : (splitSep kv e).get? 1 with
          | some v => rw [hg] at heerr; exact Except.noConfusion heerr
          | none =>
            have hlen : (splitSep kv e).length ≤ 1 := List.get?_eq_none.mp hg
            have hkv : kv ∈ e := hall sorig hsorig e (hseq ▸ hemem)
            have := (mem_iff_two_le_splitSep kv e).mp hkv
            omega

/-- C10 witness: a concrete well-separated column is decodable, and in
particular does not hit the missing-separator branch. -/
theorem convert_col_to_df_only_separated_witness :
    convert_col_to_df [cs "a=1;b=2"] '=' ';' ≠ .error .noKeyValueSep := by
  apply (convert_col_to_df_only_separated [cs "a=1;b=2"] '=' ';').2
  intro s hs e he
  rw [List.mem_singleton] at hs
  subst hs
  have hsplit : splitSep ';' (cs "a=1;b=2") = [cs "a=1", cs "b=2"] := by
    decide
  rw [hsplit] at he
  rcases List.mem_cons.mp he with h1 | h1
  · rw [h1]; decide
  · rw [List.mem_singleton] at h1
    rw [h1]; decide

theorem buildCprvRow_ok (row : Row) (cc pc rc vc : String) (ch : Str)
    (p r v : Val) (h1 : row.get cc = some (.vstr ch))
    (h2 : row.get pc = some p) (h3 : row.get rc = some r)
    (h4 : row.get vc = some v) :
    buildCprvRow row cc pc rc vc =
      .ok (row.set "CPRV" (.vstr (cprvStr ch p r v))) := by
  unfold buildCprvRow getCell
  rw [h1, h2, h3, h4]

/-- C7: the composite-key builder writes the CPRV cell as the four
designated fields joined with hyphens, with the later fields passed
through `str(...)`; the key is the same for any two rows agreeing on
those four cells, whatever their other columns hold; and for an integer
position, the rendered form is all digits (hence no decimal point) with
no leading zero unless the value is zero. -/
theorem build_cprv_key (row : Row)
    (chromosome position reference variant : String) (ch : Str) (p r v : Val)
    (h1 : row.get chromosome = some (.vstr ch))
    (h2 : row.get position = some p) (h3 : row.get reference = some r)
    (h4 : row.get variant = some v) :
    buildCprvRow row chromosome position reference variant =
      .ok (row.set "CPRV" (.vstr (cprvStr ch p r v))) ∧
    cprvStr ch p r v =
      ch ++ '-' :: p.toStr ++ '-' :: r.toStr ++ '-' :: v.toStr ∧
    (∀ row2 : Row, row2.get chromosome = some (.vstr ch) →
      row2.get position = some p → row2.get reference = some r →
      row2.get variant = some v →
      buildCprvRow row2 chromosome position reference variant =
        .ok (row2.set "CPRV" (.vstr (cprvStr ch p r v)))) ∧
    (∀ n : Nat, (Val.vint (Int.ofNat n)).toStr = natToStr n ∧
      (∀ c2 ∈ natToStr n, c2.isDigit) ∧ '.' ∉ natToStr n ∧
      (n ≠ 0 → (natToStr n).head? ≠ some '0')) := by
  refine ⟨buildCprvRow_ok row chromosome position reference variant
      ch p r v h1 h2 h3 h4, rfl, ?_, ?_⟩
  · intro row2 g1 g2 g3 g4
    exact buildCprvRow_ok row2 chromosome position reference variant
      ch p r v g1 g2 g3 g4
  · intro n
    refine ⟨?_, natToStr_isDigit n, natToStr_no_dot n, natToStr_head_ne_zero n⟩
    simp [Val.toStr, intToStr]

/-- C7 witness: a concrete row gets the key 1-100-A-T, independent of its
extra column. -/
theorem build_cprv_key_witness :
    buildCprvRow [("#CHROM", Val.vstr (cs "1")), ("POS", Val.vstr (cs "100")),
        ("REF", Val.vstr (cs "A")), ("ALT", Val.vstr (cs "T")),
        ("EXTRA", Val.vint 9)] "#CHROM" "POS" "REF" "ALT" =
      .ok (Row.set [("#CHROM", Val.vstr (cs "1")), ("POS", Val.vstr (cs "100")),
        ("REF", Val.vstr (cs "A")), ("ALT", Val.vstr (cs "T")),
        ("EXTRA", Val.vint 9)] "CPRV" (.vstr (cs "1-100-A-T"))) := by
  have h := (build_cprv_key [("#CHROM", Val.vstr (cs "1")),
      ("POS", Val.vstr (cs "100")), ("REF", Val.vstr (cs "A")),
      ("ALT", Val.vstr (cs "T")), ("EXTRA", Val.vint 9)]
      "#CHROM" "POS" "REF" "ALT" (cs "1") (Val.vstr (cs "100"))
      (Val.vstr (cs "A")) (Val.vstr (cs "T"))
      (by decide) (by decide) (by decide) (by decide)).1
  rw [h]
  decide

/-- C8: the extracted frequency list is index-aligned with the extracted
key list: same length, and every aligned pair comes from one response
entry, the frequency being that entry's optional allele_freq field
(NaN, i.e. `none`, when the field is absent — never an error); with
distinct response keys the aligned frequency is exactly the keyed lookup
of its key. -/
theorem get_allele_freqs_aligned (resp : JsonResponse) :
    (get_allele_freqs resp).length = (get_cprv resp).length ∧
    (∀ pr ∈ (get_cprv resp).zip (get_allele_freqs resp),
      ∃ e, (pr.1, e) ∈ resp ∧ pr.2 = jsonGet e "allele_freq") ∧
    ((get_cprv resp).Nodup →
      ∀ pr ∈ (get_cprv resp).zip (get_allele_freqs resp),
        ∃ e, lookupResp resp pr.1 = some e ∧
          pr.2 = jsonGet e "allele_freq") := by
  have hfr : get_allele_freqs resp =
      resp.map (fun kv => jsonGet kv.2 "allele_freq") := by
    unfold get_allele_freqs
    apply List.map_congr_left
    intro kv _
    cases hj : jsonGet kv.2 "allele_freq" <;> simp [hj]
  have hz : (get_cprv resp).zip (get_allele_freqs resp) =
      resp.map (fun kv => (kv.1, jsonGet kv.2 "allele_freq")) := by
    unfold get_cprv
    rw [hfr]
    exact List.zip_map' Prod.fst (fun kv => jsonGet kv.2 "allele_freq") resp
  refine ⟨?_, ?_, ?_⟩
  · rw [hfr]
    unfold get_cprv
    simp
  · intro pr hpr
    rw [hz] at hpr
    obtain ⟨kv, hkv, hpreq⟩ := List.mem_map.mp hpr
    refine ⟨kv.2, ?_, ?_⟩
    · rw [← hpreq]
      simpa using hkv
    · rw [← hpreq]
  · intro hnd pr hpr
    rw [hz] at hpr
    obtain ⟨kv, hkv, hpreq⟩ := List.mem_map.mp hpr
    have hnd2 : (resp.map Prod.fst).Nodup := hnd
    have hfind := find?_pairs_of_nodup resp kv.1 kv.2 hnd2 (by simpa using hkv)
    refine ⟨kv.2, ?_, ?_⟩
    · rw [← hpreq]
      unfold lookupResp
      rw [hfind]
    · rw [← hpreq]

/-- C8 witness: in a concrete response where one entry has an allele_freq
field and another lacks it, the first key looks up to its frequency. -/
theorem get_allele_freqs_aligned_witness :
    ∃ e, lookupResp [(cs "1-100-A-T", [("allele_freq", (1 : Rat))]),
        (cs "1-100-A-G", [])] (cs "1-100-A-T") = some e ∧
      some ((1 : Rat)) = jsonGet e "allele_freq" := by
  have h := (get_allele_freqs_aligned
      [(cs "1-100-A-T", [("allele_freq", (1 : Rat))]),
       (cs "1-100-A-G", [])]).2.2 (by decide)
      (cs "1-100-A-T", some ((1 : Rat))) (by decide)
  exact h

/-- C2 counterexample: one expanded row whose composite key has no entry
in the lookup result (empty response) is silently dropped by the inner
merge: the call returns normally with an empty table — no failure and no
null-filled row. -/
theorem get_exac_data_drops_row :
    get_exac_data [[("#CHROM", Val.vstr (cs "1")), ("POS", Val.vstr (cs "100")),
      ("REF", Val.vstr (cs "A")), ("ALT", Val.vstr (cs "T"))]] [] =
      .ok [] := by
  decide

/-- The composite key `get_exac_data` builds for a row, as a total
statement-level helper (rows of interest have the four string columns). -/
def cprvOfRow (row : Row) : Str :=
  match row.get "#CHROM", row.get "POS", row.get "REF", row.get "ALT" with
  | some (.vstr ch), some p, some r, some v => cprvStr ch p r v
  | _, _, _, _ => []

/-- C2 amended: when every expanded row's composite key occurs exactly
once among the lookup result's keys, the merge yields exactly one output
row per expanded row and every output row carries a frequency cell
(numeric or the NaN marker); a row whose key is absent from the result is
silently dropped by the inner join (see the counterexample) rather than
failing or being null-filled. -/
theorem get_exac_data_merge (df : List Row) (resp : JsonResponse)
    (hwf : ∀ row ∈ df, ∃ ch p r v, row.get "#CHROM" = some (.vstr ch) ∧
      row.get "POS" = some p ∧ row.get "REF" = some r ∧
      row.get "ALT" = some v)
    (hkey : ∀ row ∈ df, (get_cprv resp).count (cprvOfRow row) = 1) :
    ∃ out, get_exac_data df resp = .ok out ∧ out.length = df.length ∧
      ∀ orow ∈ out, ∃ q : Option Rat,
        orow.get "ALLELE_FREQUENCY(ExAC)" = some (.vfloat q) := by
  have hbuild : ∀ row ∈ df, buildCprvRow row "#CHROM" "POS" "REF" "ALT" =
      .ok (row.set "CPRV" (.vstr (cprvOfRow row))) := by
    intro row hrow
    obtain ⟨ch, p, r, v, h1, h2, h3, h4⟩ := hwf row hrow
    have hc : cprvOfRow row = cprvStr ch p r v := by
      unfold cprvOfRow
      rw [h1, h2, h3, h4]
    rw [hc]
    exact buildCprvRow_ok row "#CHROM" "POS" "REF" "ALT" ch p r v h1 h2 h3 h4
  have hb : build_cprv_col df "#CHROM" "POS" "REF" "ALT" =
      .ok (df.map (fun row => row.set "CPRV" (.vstr (cprvOfRow row)))) := by
    unfold build_cprv_col
    exact exceptMapM_ok_of_forall hbuild
  have heq : get_exac_data df resp =
      .ok (((df.map (fun row => row.set "CPRV" (.vstr (cprvOfRow row)))).map
        (fun row2 => ((get_cprv resp).zip
          (get_allele_freqs resp)).filterMap (fun p =>
          if row2.get "CPRV" = some (.vstr p.1) then
            some (Row.dropCol
              (row2.set "ALLELE_FREQUENCY(ExAC)" (.vfloat p.2)) "CPRV")
          else none))).flatten) := by
    unfold get_exac_data
    rw [hb]
  have hmapfst : ((get_cprv resp).zip (get_allele_freqs resp)).map Prod.fst =
      get_cprv resp := by
    apply List.map_fst_zip
    unfold get_cprv get_allele_freqs
    simp
  have hsing : ∀ row ∈ df, ∃ q : Option Rat,
      ((get_cprv resp).zip (get_allele_freqs resp)).filterMap (fun p =>
        if (row.set "CPRV" (.vstr (cprvOfRow row))).get "CPRV" =
            some (.vstr p.1) then
          some (Row.dropCol
            ((row.set "CPRV" (.vstr (cprvOfRow row))).set
              "ALLELE_FREQUENCY(ExAC)" (.vfloat p.2)) "CPRV")
        else none) =
      [Row.dropCol ((row.set "CPRV" (.vstr (cprvOfRow row))).set
        "ALLELE_FREQUENCY(ExAC)" (.vfloat q)) "CPRV"] := by
    intro row hrow
    have hget2 : (row.set "CPRV" (.vstr (cprvOfRow row))).get "CPRV" =
        some (.vstr (cprvOfRow row)) := Row.get_set_self _ _ _
    have hcnt : (((get_cprv resp).zip
        (get_allele_freqs resp)).map Prod.fst).count (cprvOfRow row) = 1 := by
      rw [hmapfst]
      exact hkey row hrow
    have hfun : (fun p : Str × Option Rat =>
        if (row.set "CPRV" (.vstr (cprvOfRow row))).get "CPRV" =
            some (.vstr p.1) then
          some (Row.dropCol
            ((row.set "CPRV" (.vstr (cprvOfRow row))).set
              "ALLELE_FREQUENCY(ExAC)" (.vfloat p.2)) "CPRV")
        else none) =
        (fun p : Str × Option Rat =>
          if p.1 = cprvOfRow row then
            some (Row.dropCol
              ((row.set "CPRV" (.vstr (cprvOfRow row))).set
                "ALLELE_FREQUENCY(ExAC)" (.vfloat p.2)) "CPRV")
          else none) := by
      funext p
      rw [hget2]
      by_cases hq : p.1 = cprvOfRow row
      · rw [if_pos (by rw [hq]), if_pos hq]
      · rw [if_neg ?_, if_neg hq]
        intro hcon
        apply hq
        have := Option.some.inj hcon
        exact (Val.vstr.inj this).symm
    rw [hfun]
    obtain ⟨p, _, hpkey, hfm⟩ := filterMap_count_one
      ((get_cprv resp).zip (get_allele_freqs resp)) (cprvOfRow row)
      (fun p => Row.dropCol ((row.set "CPRV" (.vstr (cprvOfRow row))).set
        "ALLELE_FREQUENCY(ExAC)" (.vfloat p.2)) "CPRV") hcnt
    exact ⟨p.2, hfm⟩
  refine ⟨_, heq, ?_, ?_⟩
  · rw [List.length_flatten]
    have hlens : ∀ chunk ∈ (df.map (fun row =>
        row.set "CPRV" (.vstr (cprvOfRow row)))).map
        (fun row2 => ((get_cprv resp).zip
          (get_allele_freqs resp)).filterMap (fun p =>
          if row2.get "CPRV" = some (.vstr p.1) then
            some (Row.dropCol
              (row2.set "ALLELE_FREQUENCY(ExAC)" (.vfloat p.2)) "CPRV")
          else none)), chunk.length = 1 := by
      intro chunk hchunk
      rw [List.map_map] at hchunk
      obtain ⟨row, hrow, hceq⟩ := List.mem_map.mp hchunk
      obtain ⟨q, hq⟩ := hsing row hrow
      rw [← hceq]
      simp only [Function.comp]
      rw [hq]
      rfl
    have := length_flatten_of_singletons _ hlens
    rw [List.length_flatten] at this
    rw [this]
    simp
  · intro orow horow
    rw [List.mem_flatten] at horow
    obtain ⟨chunk, hchunk, hoc⟩ := horow
    rw [List.map_map] at hchunk
    obtain ⟨row, hrow, hceq⟩ := List.mem_map.mp hchunk
    obtain ⟨q, hq⟩ := hsing row hrow
    rw [← hceq] at hoc
    simp only [Function.comp] at hoc
    rw [hq] at hoc
    rw [List.mem_singleton] at hoc
    subst hoc
    refine ⟨q, ?_⟩
    rw [Row.get_dropCol_ne _ _ _ (by decide)]
    exact Row.get_set_self _ _ _

/-- C2 amended witness: one expanded row whose key occurs exactly once in
a two-entry response merges to exactly one output row with a frequency
cell. -/
theorem get_exac_data_merge_witness :
    ∃ out, get_exac_data
        [[("#CHROM", Val.vstr (cs "1")), ("POS", Val.vstr (cs "100")),
          ("REF", Val.vstr (cs "A")), ("ALT", Val.vstr (cs "T"))]]
        [(cs "1-100-A-T", [("allele_freq", (1 : Rat))]),
         (cs "1-100-A-G", [])] = .ok out ∧
      out.length = 1 ∧
      ∀ orow ∈ out, ∃ q : Option Rat,
        orow.get "ALLELE_FREQUENCY(ExAC)" = some (.vfloat q) := by
  have hwf : ∀ row ∈ [[("#CHROM", Val.vstr (cs "1")),
      ("POS", Val.vstr (cs "100")), ("REF", Val.vstr (cs "A")),
      ("ALT", Val.vstr (cs "T"))]],
      ∃ ch p r v, Row.get row "#CHROM" = some (.vstr ch) ∧
        Row.get row "POS" = some p ∧ Row.get row "REF" = some r ∧
        Row.get row "ALT" = some v := by
    intro row hrow
    rw [List.mem_singleton] at hrow
    subst hrow
    exact ⟨cs "1", Val.vstr (cs "100"), Val.vstr (cs "A"), Val.vstr (cs "T"),
      by decide, by decide, by decide, by decide⟩
  have hkey : ∀ row ∈ [[("#CHROM", Val.vstr (cs "1")),
      ("POS", Val.vstr (cs "100")), ("REF", Val.vstr (cs "A")),
      ("ALT", Val.vstr (cs "T"))]],
      (get_cprv [(cs "1-100-A-T", [("allele_freq", (1 : Rat))]),
        (cs "1-100-A-G", [])]).count (cprvOfRow row) = 1 := by
    intro row hrow
    rw [List.mem_singleton] at hrow
    subst hrow
    decide
  obtain ⟨out, heq, hlen, hfreq⟩ := get_exac_data_merge
    [[("#CHROM", Val.vstr (cs "1")), ("POS", Val.vstr (cs "100")),
      ("REF", Val.vstr (cs "A")), ("ALT", Val.vstr (cs "T"))]]
    [(cs "1-100-A-T", [("allele_freq", (1 : Rat))]),
     (cs "1-100-A-G", [])] hwf hkey
  exact ⟨out, heq, hlen, hfreq⟩

theorem selectCols_fst (cols : List String) (row : Row) (orow : Row)
    (h : selectCols cols row = .ok orow) : orow.map Prod.fst = cols := by
  induction cols generalizing orow with
  | nil =>
    simp only [selectCols, exceptMapM] at h
    cases h
    rfl
  | cons c0 crest ih =>
    simp only [selectCols, exceptMapM] at h
    cases hg : row.get c0 with
    | none => rw [hg] at h; cases h
    | some v =>
      rw [hg] at h
      cases hr : exceptMapM (fun c =>
          match row.get c with
          | some v => Except.ok (c, v)
          | none => Except.error PyErr.keyError) crest with
      | error e => rw [hr] at h; cases h
      | ok ys =>
        rw [hr] at h
        cases h
        simp only [List.map_cons]
        rw [ih ys hr]

theorem selectCols_get (cols : List String) (row : Row) (orow : Row)
    (h : selectCols cols row = .ok orow) (hnd : cols.Nodup) :
    ∀ c ∈ cols, orow.get c = row.get c := by
  induction cols generalizing orow with
  | nil => intro c hc; cases hc
  | cons c0 crest ih =>
    intro c hc
    simp only [selectCols, exceptMapM] at h
    cases hg : row.get c0 with
    | none => rw [hg] at h; cases h
    | some v =>
      rw [hg] at h
      cases hr : exceptMapM (fun c =>
          match row.get c with
          | some v => Except.ok (c, v)
          | none => Except.error PyErr.keyError) crest with
      | error e => rw [hr] at h; cases h
      | ok ys =>
        rw [hr] at h
        cases h
        simp only [List.nodup_cons] at hnd
        rcases List.mem_cons.mp hc with hc0 | hcrest
        · subst hc0
          simp only [Row.get, if_pos rfl]
          exact hg.symm
        · have hne : c0 ≠ c := fun hcc => hnd.1 (hcc ▸ hcrest)
          simp only [Row.get, if_neg hne]
          exact ih ys hr hnd.2 c hcrest

/-- C9: whenever the write stage succeeds, every written row lists its
cells under exactly the fixed output column order
`#CHROM, POS, REF, ALT, TYPE, DP, AO, AF, ALLELE_FREQUENCY(ExAC)`,
whatever order the merged table presented them in; row count and cell
values are preserved row by row. -/
theorem write_output_column_order (df : List Row) (out : List Row)
    (h : write_output df = .ok out) :
    (∀ orow ∈ out, orow.map Prod.fst = output_columns) ∧
    out.length = df.length ∧
    List.Forall₂ (fun row orow => ∀ c ∈ output_columns,
      orow.get c = row.get c) df out := by
  unfold write_output at h
  have hf2 := exceptMapM_ok_forall₂ h
  clear h
  induction hf2 with
  | nil => exact ⟨(by intro orow h; cases h), rfl, List.Forall₂.nil⟩
  | cons hR hRs ih =>
    rename_i row orow dfrest outrest
    refine ⟨?_, ?_, ?_⟩
    · intro o ho
      rcases List.mem_cons.mp ho with ho | ho
      · subst ho
        exact selectCols_fst output_columns row o hR
      · exact ih.1 o ho
    · simp only [List.length_cons]
      rw [ih.2.1]
    · exact List.Forall₂.cons
        (selectCols_get output_columns row orow hR (by decide)) ih.2.2

/-- C9 witness: a merged row presented in a scrambled internal column
order is written with the fixed output column order. -/
theorem write_output_column_order_witness :
    ∃ out, write_output [[("AF", Val.vstr (cs "0.4")),
        ("ALLELE_FREQUENCY(ExAC)", Val.vfloat (some (1 : Rat))),
        ("#CHROM", Val.vstr (cs "1")), ("POS", Val.vstr (cs "100")),
        ("REF", Val.vstr (cs "A")), ("ALT", Val.vstr (cs "T")),
        ("TYPE", Val.vstr (cs "snp")), ("DP", Val.vstr (cs "50")),
        ("AO", Val.vstr (cs "20"))]] = .ok out ∧
      ∀ orow ∈ out, orow.map Prod.fst = output_columns := by
  have hw : write_output [[("AF", Val.vstr (cs "0.4")),
      ("ALLELE_FREQUENCY(ExAC)", Val.vfloat (some (1 : Rat))),
      ("#CHROM", Val.vstr (cs "1")), ("POS", Val.vstr (cs "100")),
      ("REF", Val.vstr (cs "A")), ("ALT", Val.vstr (cs "T")),
      ("TYPE", Val.vstr (cs "snp")), ("DP", Val.vstr (cs "50")),
      ("AO", Val.vstr (cs "20"))]] =
      .ok [[("#CHROM", Val.vstr (cs "1")), ("POS", Val.vstr (cs "100")),
        ("REF", Val.vstr (cs "A")), ("ALT", Val.vstr (cs "T")),
        ("TYPE", Val.vstr (cs "snp")), ("DP", Val.vstr (cs "50")),
        ("AO", Val.vstr (cs "20")), ("AF", Val.vstr (cs "0.4")),
        ("ALLELE_FREQUENCY(ExAC)", Val.vfloat (some (1 : Rat)))]] := by
    decide
  exact ⟨_, hw, (write_output_column_order _ _ hw).1⟩

/-- One data line of the spec's concrete scenario, as read_csv types it:
CHROM 1, POS 100, REF A, ALT `T,G`,
INFO `DP=50;AO=20,5;AF=0.4,0.1;TYPE=snp,snp`. -/
def scenarioRow : Row :=
  [("#CHROM", Val.vint 1), ("POS", Val.vint 100),
   ("REF", Val.vstr (cs "A")), ("ALT", Val.vstr (cs "T,G")),
   ("INFO", Val.vstr (cs "DP=50;AO=20,5;AF=0.4,0.1;TYPE=snp,snp"))]

/-- C1: evaluating the decode-project-expand stages on the spec's
multi-allelic scenario row.  Two rows do come out, with per-allele ALT,
TYPE and AF, but the observation-count column AO is not among the
expanded columns (src/var_annot.py:178 expands only TYPE, ALT, AF), so
both output rows carry the joined string `20,5` where the spec's
scenario expects the per-allele values 20 and 5. -/
theorem subset_vcf_scenario_ao_joined :
    subset_vcf [scenarioRow] =
      .ok [[("#CHROM", Val.vstr (cs "1")), ("POS", Val.vstr (cs "100")),
            ("REF", Val.vstr (cs "A")), ("ALT", Val.vstr (cs "T")),
            ("DP", Val.vstr (cs "50")), ("AO", Val.vstr (cs "20,5")),
            ("AF", Val.vstr (cs "0.4")), ("TYPE", Val.vstr (cs "snp"))],
           [("#CHROM", Val.vstr (cs "1")), ("POS", Val.vstr (cs "100")),
            ("REF", Val.vstr (cs "A")), ("ALT", Val.vstr (cs "G")),
            ("DP", Val.vstr (cs "50")), ("AO", Val.vstr (cs "20,5")),
            ("AF", Val.vstr (cs "0.1")), ("TYPE", Val.vstr (cs "snp"))]] ∧
    (Val.vstr (cs "20,5") ≠ Val.vstr (cs "20") ∧
     Val.vstr (cs "20,5") ≠ Val.vstr (cs "5")) := by
  decide

end VarAnnot
